import Mathlib

/-!
Verification of the snapshot-read protocol and polling daemon of
`solana-hydrant` (`src/snapshot.rs`, `src/daemon.rs`, `src/main.rs`),
as a shallow embedding in Lean 4.

Conventions of the embedding:

* `Pubkey` and `Account` are opaque identifiers, modelled as `Nat`.
* The RPC server (`RpcClient::get_multiple_accounts`) is modelled as a
  function from the requested chunk to a response; the too-many-inputs
  classification of `is_too_many_inputs_error` is the `tooManyInputs`
  constructor of the response type.  The "hidden limit `L`" server of the
  specification is `detServer`.
* `&mut self` methods become explicit state passing; a method whose Rust
  return type is `()` returns `Unit` alongside the updated state.
* The unbounded `for num_chunks in 1..` loop of
  `get_multiple_accounts_chunked` runs for at most `N + 1` iterations in
  every execution (at `num_chunks = N + 1` the `items_per_chunk > 0`
  assertion fires), so it is embedded with an explicit iteration budget of
  `N + 1`; `assertFail` models a firing `assert!`/`assert_eq!` (a panic).
* Every call to the server is recorded as an `Event` in a trace, together
  with the value of `max_items_per_call` before and after the call, so
  that temporal claims about issued chunks can be stated.
-/

/-- Opaque model of `solana_sdk::pubkey::Pubkey`. -/
abbrev Pubkey : Type := Nat

/-- Opaque model of `solana_sdk::account::Account`. -/
abbrev Account : Type := Nat

/-- Model of the outcome of one `RpcClient::get_multiple_accounts` call, after
classification by `is_too_many_inputs_error`: either the ordered values (the
Rust `Vec<Option<Account>>`), or the too-many-inputs rejection, or any other
client error. -/
inductive RpcResp : Type
  | ok (vals : List (Option Account))
  | tooManyInputs
  | otherError
  deriving DecidableEq

/-- A server (batch reader) is a function from the issued chunk to a response. -/
abbrev Server : Type := List Pubkey → RpcResp

/-- The deterministic server with hidden batch limit `L` and account contents
`v`: it rejects a chunk with the too-many-inputs error exactly when the
chunk's length exceeds `L`, and otherwise succeeds with the values of the
requested keys, aligned with the request order. -/
def detServer (L : Nat) (v : Pubkey → Option Account) : Server :=
  fun chunk => if chunk.length > L then .tooManyInputs else .ok (chunk.map v)

/-- One server call recorded in the trace: the chunk that was issued, whether
the response was the too-many-inputs rejection, and the value of
`max_items_per_call` before the call and after its handling. -/
structure Event : Type where
  chunk : List Pubkey
  rejected : Bool
  maxBefore : Nat
  maxAfter : Nat
  deriving DecidableEq

/-- `usize::MAX`, the initial (unbounded) value of `max_items_per_call`. -/
def usize_MAX : Nat := 2 ^ 64 - 1

/-- Helper for `chunksOf`, structurally recursive on an iteration budget.
The budget is an upper bound on the number of chunks; `chunksOf` passes
`l.length`, which suffices whenever the chunk size is at least 1. -/
def chunksGo {α : Type} (s : Nat) : Nat → List α → List (List α)
  | _, [] => []
  | 0, _ :: _ => []
  | n + 1, x :: xs => (x :: xs).take s :: chunksGo s n ((x :: xs).drop s)

/-- Model of Rust's `slice::chunks(s)`: contiguous chunks of length `s`, the
final chunk possibly shorter.  (`chunks(0)` panics in Rust; it is only ever
called here behind the `items_per_chunk > 0` assertion.) -/
def chunksOf {α : Type} (s : Nat) (l : List α) : List (List α) :=
  chunksGo s l.length l

/-- Outcome of issuing the chunks of one attempt (one `num_chunks` value) to
the server, in order: all succeeded with the concatenated values, or some
chunk was rejected as too large (recording its length; the attempt is
abandoned via `continue 'num_chunks`), or some chunk failed fatally. -/
inductive AttemptOut : Type
  | success (vals : List (Option Account))
  | rejectedAttempt (chunkLen : Nat)
  | fatalAttempt
  deriving DecidableEq

/-- Issue the chunks of one attempt sequentially to the server, at current
`max_items_per_call` value `m`, recording one `Event` per issued chunk.
Mirrors the `for chunk in self.accounts_to_query.chunks(items_per_chunk)`
loop body of `get_multiple_accounts_chunked`. -/
def runChunks (server : Server) (m : Nat) :
    List (List Pubkey) → List Event × AttemptOut
  | [] => ([], .success [])
  | c :: cs =>
    match server c with
    | .ok vals =>
      let r := runChunks server m cs
      (⟨c, false, m, m⟩ :: r.1,
        match r.2 with
        | .success rest => .success (vals ++ rest)
        | o => o)
    | .tooManyInputs => ([⟨c, true, m, c.length - 1⟩], .rejectedAttempt c.length)
    | .otherError => ([⟨c, false, m, m⟩], .fatalAttempt)

/-- Final outcome of `get_multiple_accounts_chunked`. `assertFail` models a
firing `assert!` or `assert_eq!` (a panic); `outOfFuel` is the artefact of
the explicit iteration budget and is unreachable with budget `N + 1`. -/
inductive FetchRes : Type
  | ok (vals : List (Option Account))
  | fatal
  | assertFail
  | outOfFuel
  deriving DecidableEq

/-- Result of `get_multiple_accounts_chunked`: the outcome, the final value of
`max_items_per_call`, and the trace of all server calls that were issued. -/
structure FetchOut : Type where
  res : FetchRes
  finalMax : Nat
  trace : List Event
  deriving DecidableEq

/-- The `'num_chunks: for num_chunks in 1..` loop of
`get_multiple_accounts_chunked`, at iteration `num_chunks = k` with current
`max_items_per_call = m` and remaining iteration budget `fuel`.

Per iteration: `items_per_chunk := keys.length / k`; `assert!` that it is
positive; skip to `k + 1` if it exceeds `m`; otherwise issue the chunks.  A
too-many-inputs rejection of a chunk of length `len` sets
`max_items_per_call := len - 1` and retries at `k + 1` (partial results are
discarded); any other error is fatal; on success, `assert_eq!` that the
result length equals the query length, then return the result. -/
def fetchLoop (server : Server) (keys : List Pubkey) :
    Nat → Nat → Nat → FetchOut
  | _, m, 0 => ⟨.outOfFuel, m, []⟩
  | k, m, fuel + 1 =>
    let items_per_chunk := keys.length / k
    if items_per_chunk = 0 then ⟨.assertFail, m, []⟩
    else if items_per_chunk > m then fetchLoop server keys (k + 1) m fuel
    else
      let r := runChunks server m (chunksOf items_per_chunk keys)
      match r.2 with
      | .success vals =>
        if vals.length = keys.length then ⟨.ok vals, m, r.1⟩
        else ⟨.assertFail, m, r.1⟩
      | .rejectedAttempt len =>
        let rest := fetchLoop server keys (k + 1) (len - 1) fuel
        ⟨rest.res, rest.finalMax, r.1 ++ rest.trace⟩
      | .fatalAttempt => ⟨.fatal, m, r.1⟩

/-- `SnapshotClient::get_multiple_accounts_chunked`, for a query set given as
the ordered list `keys` and with current `max_items_per_call = m`.  The empty
query returns an empty result without contacting the server; otherwise the
attempt loop runs from `num_chunks = 1` (budget `keys.length + 1` covers
every reachable iteration, see `fetchLoop`). -/
def get_multiple_accounts_chunked (server : Server) (keys : List Pubkey)
    (m : Nat) : FetchOut :=
  if keys.isEmpty then ⟨.ok [], m, []⟩
  else fetchLoop server keys 1 m (keys.length + 1)

/-- A sequence of `get_multiple_accounts_chunked` calls within one process,
threading the learned `max_items_per_call` from each call to the next and
concatenating the traces.  Returns the combined trace and the final
`max_items_per_call`. -/
def runCalls (server : Server) : List (List Pubkey) → Nat → List Event × Nat
  | [], m => ([], m)
  | ks :: rest, m =>
    let out := get_multiple_accounts_chunked server ks m
    let r := runCalls server rest out.finalMax
    (out.trace ++ r.1, r.2)

/-- Local well-formedness of one trace event, as established by the code: the
issued chunk is non-empty and no longer than the `max_items_per_call` in
effect when it was issued, a too-many-inputs rejection of a chunk of length
`len` writes `len - 1` into `max_items_per_call`, and any other response
leaves it unchanged. -/
def EventOK (e : Event) : Prop :=
  e.chunk ≠ [] ∧ e.chunk.length ≤ e.maxBefore ∧
  (e.rejected = true → e.maxAfter = e.chunk.length - 1) ∧
  (e.rejected = false → e.maxAfter = e.maxBefore)

/-- `Chained m₀ tr m₁` says the recorded before/after values of
`max_items_per_call` thread through the trace `tr`: the first event sees
`m₀`, each event's `maxAfter` is the next event's `maxBefore`, and the last
event's `maxAfter` is `m₁` (with `m₀ = m₁` for the empty trace).  Together
with `EventOK` for every event this expresses that rejections are the only
writes to `max_items_per_call`. -/
def Chained : Nat → List Event → Nat → Prop
  | m₀, [], m₁ => m₀ = m₁
  | m₀, e :: tr, m₁ => e.maxBefore = m₀ ∧ Chained e.maxAfter tr m₁

/-- The value of `max_items_per_call` after handling one attempt outcome that
started at `m`: only a too-many-inputs rejection changes it. -/
def outMax (m : Nat) : AttemptOut → Nat
  | .rejectedAttempt len => len - 1
  | _ => m

/-! ### `OrderedSet` (`src/snapshot.rs`) -/

/-- `OrderedSet<T>`: a set that preserves insertion order.  Invariant of the
Rust struct: the vec and the set contain the same elements; `elements_set`
(a `HashSet`) is modelled as a `Finset`. -/
structure OrderedSet (T : Type) where
  elements_vec : List T
  elements_set : Finset T
  deriving DecidableEq

/-- `OrderedSet::new`. -/
def OrderedSet.new (T : Type) : OrderedSet T := ⟨[], ∅⟩

/-- `OrderedSet::push`: append an element at the end, if it was not yet in
the set.  `is_new` models the `bool` returned by `HashSet::insert`; the Rust
method itself returns `()`, modelled by the `Unit` component. -/
def OrderedSet.push {T : Type} [DecidableEq T] (s : OrderedSet T)
    (element : T) : OrderedSet T × Unit :=
  let is_new : Bool := element ∉ s.elements_set
  (⟨if is_new then s.elements_vec ++ [element] else s.elements_vec,
    insert element s.elements_set⟩, ())

/-- `OrderedSet::union_with`: merge `other` into `self`, preserving the order
of `self` and appending the additional elements of `other` in order. -/
def OrderedSet.union_with {T : Type} [DecidableEq T] (s other : OrderedSet T) :
    OrderedSet T :=
  other.elements_vec.foldl (fun acc element => (acc.push element).1) s

/-! ### `Snapshot` and `SnapshotClient` (`src/snapshot.rs`) -/

/-- Model of `crate::error::Error` (`src/error.rs`), restricted to the
variants the snapshot protocol produces. -/
inductive Err : Type
  | missingAccount (missing_account : Pubkey)
  | missingValidatorInfo (validator_identity : Pubkey)
  | clientError
  deriving DecidableEq

/-- `SnapshotError` (`src/snapshot.rs`). -/
inductive SnapErr : Type
  | missingAccount
  | missingValidatorIdentity (identity : Pubkey)
  | otherError (e : Err)
  deriving DecidableEq

/-- `Snapshot::get_account`.  The snapshot's `accounts` map (a `HashMap` built
by zipping the query order with the fetched values) is modelled as an
association list; `accounts_referenced` is the mutable referenced set, which
records the address before the lookup, even on failure. -/
def Snapshot_get_account (accounts : List (Pubkey × Option Account))
    (accounts_referenced : OrderedSet Pubkey) (address : Pubkey) :
    OrderedSet Pubkey × Except SnapErr Account :=
  let refd := (accounts_referenced.push address).1
  match accounts.lookup address with
  | some (some account) => (refd, .ok account)
  | some none => (refd, .error (.otherError (.missingAccount address)))
  | none => (refd, .error .missingAccount)

/-- A callback passed to `with_snapshot`: it receives the round's fetched
map and the round's fresh referenced set, and returns the referenced set as
accumulated by its `Snapshot::get_account` calls together with its outcome. -/
abbrev Callback (T : Type) : Type :=
  List (Pubkey × Option Account) → OrderedSet Pubkey →
    OrderedSet Pubkey × Except SnapErr T

/-- A callback that reads the given keys in order via `Snapshot_get_account`,
propagating the first error. -/
def read_keys_go (accounts : List (Pubkey × Option Account)) :
    List Pubkey → OrderedSet Pubkey → OrderedSet Pubkey × Except SnapErr Unit
  | [], refd => (refd, .ok ())
  | k :: ks, refd =>
    let r := Snapshot_get_account accounts refd k
    match r.2 with
    | .ok _ => read_keys_go accounts ks r.1
    | .error e => (r.1, .error e)

/-- The callback reading a fixed key list, as a `Callback`. -/
def read_keys (ks : List Pubkey) : Callback Unit :=
  fun accounts refd => read_keys_go accounts ks refd

/-- The persistent state of `SnapshotClient`: the accounts to query, the
validator-info address map (a `HashMap`, modelled as an association list)
and the learned `max_items_per_call`. -/
structure SnapshotClient : Type where
  accounts_to_query : OrderedSet Pubkey
  validator_info_addrs : List (Pubkey × Pubkey)
  max_items_per_call : Nat
  deriving DecidableEq

/-- `SnapshotClient::new`. -/
def SnapshotClient.new : SnapshotClient :=
  ⟨OrderedSet.new Pubkey, [], usize_MAX⟩

/-- Auxiliary injection of `Except` into `Sum`, used only to derive
decidable equality of callback outcomes. -/
def exceptToSum {e a : Type} : Except e a → e ⊕ a
  | .error x => .inl x
  | .ok x => .inr x

instance {e a : Type} [DecidableEq e] [DecidableEq a] :
    DecidableEq (Except e a) := fun x y =>
  decidable_of_iff (exceptToSum x = exceptToSum y)
    (by cases x <;> cases y <;> simp [exceptToSum])

/-- Result of `with_snapshot`: the returned value or fatal error, the client
state afterwards, and the number of fetch rounds executed; `panicked` models
a firing assertion inside the chunked fetch, `fuelOut` is the artefact of
the explicit retry budget (the Rust loop is unbounded by design). -/
inductive WsRes (T : Type) : Type
  | done (result : Except Err T) (client : SnapshotClient) (rounds : Nat)
  | panicked
  | fuelOut
  deriving DecidableEq

/-- `SnapshotClient::with_snapshot`: the FETCH → INVOKE → CLASSIFY retry
loop.  `vinfo round` models the external
`validator_info_utils::get_validator_info_accounts` call made on the
missing-validator-identity path during retry round `round`.  On callback
success, `accounts_to_query` is replaced by the round's referenced set; on a
missing account, the referenced set is unioned with the previous
`accounts_to_query` and the loop retries; any other error propagates. -/
def with_snapshot {T : Type} (server : Server)
    (vinfo : Nat → Except Err (List (Pubkey × Pubkey))) (f : Callback T) :
    Nat → Nat → SnapshotClient → WsRes T
  | 0, _, _ => .fuelOut
  | fuel + 1, round, self =>
    let fo := get_multiple_accounts_chunked server
      self.accounts_to_query.elements_vec self.max_items_per_call
    let self1 : SnapshotClient := { self with max_items_per_call := fo.finalMax }
    match fo.res with
    | .outOfFuel => .fuelOut
    | .assertFail => .panicked
    | .fatal => .done (.error .clientError) self1 1
    | .ok account_values =>
      let accounts := self1.accounts_to_query.elements_vec.zip account_values
      let r := f accounts (OrderedSet.new Pubkey)
      match r.2 with
      | .ok result => .done (.ok result) { self1 with accounts_to_query := r.1 } 1
      | .error (.otherError err) => .done (.error err) self1 1
      | .error (.missingValidatorIdentity identity_addr) =>
        match vinfo round with
        | .error e => .done (.error e) self1 1
        | .ok addrs =>
          let self2 := { self1 with validator_info_addrs := addrs }
          if (addrs.lookup identity_addr).isSome then
            match with_snapshot server vinfo f fuel (round + 1) self2 with
            | .done res st n => .done res st (n + 1)
            | other => other
          else .done (.error (.missingValidatorInfo identity_addr)) self2 1
      | .error .missingAccount =>
        let newq := OrderedSet.union_with r.1 self1.accounts_to_query
        match with_snapshot server vinfo f fuel (round + 1)
            { self1 with accounts_to_query := newq } with
        | .done res st n => .done res st (n + 1)
        | other => other

/-! ### Daemon (`src/daemon.rs`, `src/main.rs`) -/

/-- The `Metrics` value object of `src/main.rs`; `produced_at` is a
`SystemTime`, modelled as nanoseconds since the Unix epoch. -/
structure Metrics : Type where
  current_slot : Nat
  current_epoch : Nat
  solana_version : String
  produced_at : Nat
  polls : Nat
  errors : Nat
  deriving DecidableEq

/-- The zero-valued metrics created by `Daemon::new`. -/
def initial_metrics : Metrics :=
  { current_slot := 0, current_epoch := 0, solana_version := "0.0.0",
    produced_at := 0, polls := 0, errors := 0 }

/-- Daemon state: the last-success instant (monotonic nanoseconds), the
private metrics counters, and the content of the published metrics pointer
(`snapshot_mutex`, the `Arc<Metrics>` behind the mutex that the HTTP
handlers in `serve_request` clone and read). -/
structure Daemon : Type where
  last_read_success : Nat
  metrics : Metrics
  snapshot_mutex : Metrics
  deriving DecidableEq

/-- `Daemon::new`, at creation instant `now`: `last_read_success` is set to
`Instant::now()`, and the initial metrics value is both stored and
published. -/
def Daemon.new (now : Nat) : Daemon :=
  { last_read_success := now, metrics := initial_metrics,
    snapshot_mutex := initial_metrics }

/-- Rust's `Ord::clamp` on durations (nanoseconds). -/
def clampDuration (x lo hi : Nat) : Nat :=
  if x < lo then lo else if x > hi then hi else x

/-- `Duration::from_secs_f32(0.2)`, modelled at nanosecond precision. -/
def min_sleep_time : Nat := 200000000

/-- `Duration::from_secs_f32(300.0)` in nanoseconds. -/
def max_sleep_time : Nat := 300000000000

/-- `Daemon::get_sleep_time_after_error`: clamp the time since the last
recorded success into `[min_sleep_time, max_sleep_time]` and draw the sleep
time from `[0, target)`.  The thread-local generator behind
`rng.gen_range(0..target)` is modelled as the oracle `rng`; its range
contract is a hypothesis of the theorems. -/
def get_sleep_time_after_error (time_since_last_success : Nat)
    (rng : Nat → Nat) : Nat :=
  let target_sleep_time :=
    clampDuration time_since_last_success min_sleep_time max_sleep_time
  rng target_sleep_time

/-- The data one successful poll reads through the snapshot:
`sysvar::clock` (slot and epoch) and the node version. -/
structure RpcData : Type where
  slot : Nat
  epoch : Nat
  version : String
  deriving DecidableEq

/-- One iteration of `Daemon::run`: increment the poll counter, then either
(on success) update the metrics from the RPC data, stamp `produced_at` with
the wall clock and publish the new metrics snapshot, sleeping the fixed poll
interval — or (on failure) increment the error counter and sleep the jittered
backoff computed from the time since `last_read_success` (`now_mono`
is `Instant::now()` at the backoff computation).  Returns the new daemon
state and the sleep duration in nanoseconds. -/
def run_iteration (poll_interval_seconds : Nat) (self : Daemon)
    (poll_result : Option RpcData) (now_wall : Nat) (now_mono : Nat)
    (rng : Nat → Nat) : Daemon × Nat :=
  let m0 := { self.metrics with polls := self.metrics.polls + 1 }
  match poll_result with
  | some rpc_data =>
    let m1 := { m0 with
      current_slot := rpc_data.slot,
      current_epoch := rpc_data.epoch,
      solana_version := rpc_data.version,
      produced_at := now_wall }
    ({ self with metrics := m1, snapshot_mutex := m1 },
      poll_interval_seconds * 1000000000)
  | none =>
    let m1 := { m0 with errors := m0.errors + 1 }
    ({ self with metrics := m1 },
      get_sleep_time_after_error (now_mono - self.last_read_success) rng)

/-! ### Lemmas about `chunksOf` -/

theorem chunksGo_join {α : Type} (s : Nat) (hs : 1 ≤ s) :
    ∀ (fuel : Nat) (l : List α), l.length ≤ fuel → (chunksGo s fuel l).flatten = l := by
  intro fuel
  induction fuel with
  | zero =>
    intro l hl
    have : l = [] := List.eq_nil_of_length_eq_zero (Nat.le_zero.mp hl)
    subst this
    simp [chunksGo]
  | succ n ih =>
    intro l hl
    match l with
    | [] => simp [chunksGo]
    | x :: xs =>
      have hdrop : ((x :: xs).drop s).length ≤ n := by
        rw [List.length_drop]
        simp only [List.length_cons] at hl ⊢
        omega
      simp only [chunksGo, List.flatten]
      rw [ih _ hdrop]
      exact List.take_append_drop s (x :: xs)

theorem chunksGo_mem {α : Type} (s : Nat) (hs : 1 ≤ s) :
    ∀ (fuel : Nat) (l : List α) (c : List α), c ∈ chunksGo s fuel l →
      c.length ≤ s ∧ c ≠ [] := by
  intro fuel
  induction fuel with
  | zero =>
    intro l c hc
    match l with
    | [] => simp [chunksGo] at hc
    | x :: xs => simp [chunksGo] at hc
  | succ n ih =>
    intro l c hc
    match l with
    | [] => simp [chunksGo] at hc
    | x :: xs =>
      simp only [chunksGo, List.mem_cons] at hc
      rcases hc with hc | hc
      · subst hc
        constructor
        · rw [List.length_take]; omega
        · match s, hs with
          | s' + 1, _ => simp [List.take]
      · exact ih _ _ hc

theorem chunksOf_flatten {α : Type} (s : Nat) (hs : 1 ≤ s) (l : List α) :
    (chunksOf s l).flatten = l :=
  chunksGo_join s hs l.length l (le_refl _)

theorem chunksOf_mem {α : Type} (s : Nat) (hs : 1 ≤ s) (l : List α)
    (c : List α) (hc : c ∈ chunksOf s l) : c.length ≤ s ∧ c ≠ [] :=
  chunksGo_mem s hs l.length l c hc

theorem chunksOf_head {α : Type} (s : Nat) (l : List α) (h : l ≠ []) :
    ∃ cs, chunksOf s l = l.take s :: cs := by
  match l with
  | [] => exact absurd rfl h
  | x :: xs => exact ⟨_, rfl⟩

/-! ### Lemmas about `runChunks` -/

theorem runChunks_detServer_success (L : Nat) (v : Pubkey → Option Account)
    (m : Nat) :
    ∀ cs : List (List Pubkey), (∀ c ∈ cs, c.length ≤ L) →
      (runChunks (detServer L v) m cs).2 = .success ((cs.flatten).map v) := by
  intro cs
  induction cs with
  | nil => intro _; simp [runChunks]
  | cons c cs ih =>
    intro hall
    have hc : c.length ≤ L := hall c (List.mem_cons_self c cs)
    have hsrv : detServer L v c = .ok (c.map v) := by
      simp [detServer, Nat.not_lt.mpr hc]
    simp only [runChunks, hsrv]
    rw [ih (fun d hd => hall d (List.mem_cons_of_mem c hd))]
    simp [List.map_append]

theorem runChunks_detServer_reject (L : Nat) (v : Pubkey → Option Account)
    (m : Nat) (c : List Pubkey) (cs : List (List Pubkey)) (hc : c.length > L) :
    (runChunks (detServer L v) m (c :: cs)).2 = .rejectedAttempt c.length := by
  have hsrv : detServer L v c = .tooManyInputs := by simp [detServer, hc]
  simp [runChunks, hsrv]

theorem runChunks_pointwise_success (server : Server)
    (v : Pubkey → Option Account) (m : Nat)
    (hpt : ∀ c vs, server c = .ok vs → vs = c.map v) :
    ∀ (cs : List (List Pubkey)) (vals : List (Option Account)),
      (runChunks server m cs).2 = .success vals → vals = (cs.flatten).map v := by
  intro cs
  induction cs with
  | nil =>
    intro vals h
    simp only [runChunks] at h
    cases h
    simp
  | cons c cs ih =>
    intro vals h
    simp only [runChunks] at h
    cases hs : server c with
    | ok vs =>
      rw [hs] at h
      cases hr : (runChunks server m cs).2 with
      | success rest =>
        rw [hr] at h
        cases h
        rw [hpt c vs hs, ih rest hr]
        simp [List.map_append]
      | rejectedAttempt len => rw [hr] at h; cases h
      | fatalAttempt => rw [hr] at h; cases h
    | tooManyInputs => rw [hs] at h; cases h
    | otherError => rw [hs] at h; cases h

/-! ### Termination and alignment of the adaptive chunked fetch -/

theorem fetchLoop_detServer (L : Nat) (v : Pubkey → Option Account)
    (keys : List Pubkey) (hL : 1 ≤ L) :
    ∀ (fuel k m : Nat), 1 ≤ k → k ≤ keys.length → L ≤ m →
      keys.length + 1 ≤ k + fuel →
      (fetchLoop (detServer L v) keys k m fuel).res = .ok (keys.map v) ∧
      L ≤ (fetchLoop (detServer L v) keys k m fuel).finalMax := by
  intro fuel
  induction fuel with
  | zero => intro k m hk hkN _ hbudget; omega
  | succ n ih =>
    intro k m hk hkN hLm hbudget
    have hN : 1 ≤ keys.length := le_trans hk hkN
    have hs1 : 1 ≤ keys.length / k := (Nat.one_le_div_iff (by omega)).mpr hkN
    have hsN : keys.length / k ≤ keys.length := Nat.div_le_self _ _
    simp only [fetchLoop]
    rw [if_neg (by omega)]
    by_cases hskip : keys.length / k > m
    · -- items_per_chunk > max_items_per_call: skip to k + 1
      rw [if_pos hskip]
      have hklt : k < keys.length := by
        rcases Nat.lt_or_ge k keys.length with h | h
        · exact h
        · have : k = keys.length := le_antisymm hkN h
          subst this
          rw [Nat.div_self (by omega)] at hskip
          omega
      exact ih (k + 1) m (by omega) hklt hLm (by omega)
    · rw [if_neg hskip]
      push_neg at hskip
      by_cases hfits : keys.length / k ≤ L
      · -- every chunk fits under the limit: the attempt succeeds
        have hall : ∀ c ∈ chunksOf (keys.length / k) keys, c.length ≤ L := by
          intro c hc
          have := chunksOf_mem (keys.length / k) hs1 keys c hc
          omega
        rw [runChunks_detServer_success L v m _ hall,
          chunksOf_flatten (keys.length / k) hs1 keys]
        dsimp only
        rw [if_pos (List.length_map keys v)]
        exact ⟨rfl, hLm⟩
      · -- items_per_chunk > L: the first chunk is rejected, retry at k + 1
        push_neg at hfits
        obtain ⟨cs, hcs⟩ :=
          chunksOf_head (keys.length / k) keys (List.ne_nil_of_length_pos hN)
        have hheadlen : (keys.take (keys.length / k)).length = keys.length / k := by
          rw [List.length_take]; omega
        rw [hcs, runChunks_detServer_reject L v m _ cs (by omega)]
        rw [hheadlen]
        dsimp only
        have hklt : k < keys.length := by
          rcases Nat.lt_or_ge k keys.length with h | h
          · exact h
          · have : k = keys.length := le_antisymm hkN h
            subst this
            rw [Nat.div_self (by omega)] at hfits
            omega
        exact ih (k + 1) (keys.length / k - 1) (by omega) hklt (by omega) (by omega)

theorem get_multiple_accounts_chunked_detServer_ok (L : Nat)
    (v : Pubkey → Option Account) (keys : List Pubkey) (m : Nat)
    (hL : 1 ≤ L) (hkeys : keys ≠ []) (hm : L ≤ m) :
    (get_multiple_accounts_chunked (detServer L v) keys m).res
      = .ok (keys.map v) := by
  have hN : 1 ≤ keys.length := List.length_pos.mpr hkeys
  unfold get_multiple_accounts_chunked
  rw [if_neg (by simpa [List.isEmpty_iff] using hkeys)]
  exact (fetchLoop_detServer L v keys hL (keys.length + 1) 1 m (le_refl 1) hN hm
    (by omega)).1

/-- Claim C1: for every non-empty ordered key set and every hidden server
batch limit `L ≥ 1` (the batch reader rejects a chunk with the
too-many-inputs error exactly when the chunk's length exceeds `L`, and
succeeds otherwise), `get_multiple_accounts_chunked` terminates with a
result after finitely many attempt counters, and neither internal assertion
(in particular `items_per_chunk > 0`) ever fires.  The hypothesis `L ≤ m`
reflects the reachable states of `max_items_per_call`: it starts at
`usize::MAX` and is only ever lowered to `len - 1` for a rejected chunk of
length `len > L`. -/
theorem chunked_fetch_terminates_without_assert (L : Nat)
    (v : Pubkey → Option Account) (keys : List Pubkey) (m : Nat)
    (hL : 1 ≤ L) (hkeys : keys ≠ []) (hm : L ≤ m) :
    (get_multiple_accounts_chunked (detServer L v) keys m).res
      = .ok (keys.map v) :=
  get_multiple_accounts_chunked_detServer_ok L v keys m hL hkeys hm

theorem chunked_fetch_terminates_without_assert_witness :
    (1 : Nat) ≤ 2 ∧ ([5, 6, 7] : List Pubkey) ≠ [] ∧ (2 : Nat) ≤ usize_MAX ∧
    (get_multiple_accounts_chunked (detServer 2 (fun k => some (k + 1)))
      [5, 6, 7] usize_MAX).res = .ok [some 6, some 7, some 8] := by
  refine ⟨by omega, by decide, by decide, ?_⟩
  have h := chunked_fetch_terminates_without_assert 2 (fun k => some (k + 1))
    [5, 6, 7] usize_MAX (by omega) (by decide) (by decide)
  simpa using h

theorem fetchLoop_success_aligned (server : Server)
    (v : Pubkey → Option Account) (keys : List Pubkey)
    (hpt : ∀ c vs, server c = .ok vs → vs = c.map v) :
    ∀ (fuel k m : Nat) (vals : List (Option Account)),
      (fetchLoop server keys k m fuel).res = .ok vals → vals = keys.map v := by
  intro fuel
  induction fuel with
  | zero => intro k m vals h; simp [fetchLoop] at h
  | succ n ih =>
    intro k m vals h
    simp only [fetchLoop] at h
    by_cases hz : keys.length / k = 0
    · rw [if_pos hz] at h; cases h
    · rw [if_neg hz] at h
      by_cases hskip : keys.length / k > m
      · rw [if_pos hskip] at h
        exact ih (k + 1) m vals h
      · rw [if_neg hskip] at h
        cases hr : (runChunks server m (chunksOf (keys.length / k) keys)).2 with
        | success vs =>
          rw [hr] at h
          dsimp only at h
          by_cases hlen : vs.length = keys.length
          · rw [if_pos hlen] at h
            have h2 := runChunks_pointwise_success server v m hpt _ vs hr
            rw [chunksOf_flatten (keys.length / k) (Nat.one_le_iff_ne_zero.mpr hz) keys] at h2
            injection h with h'
            rw [← h']
            exact h2
          · rw [if_neg hlen] at h; cases h
        | rejectedAttempt len =>
          rw [hr] at h
          dsimp only at h
          exact ih (k + 1) (len - 1) vals h
        | fatalAttempt => rw [hr] at h; dsimp only at h; cases h

/-- Claim C4: whenever `get_multiple_accounts_chunked` returns successfully
for a query set of `N` keys, the returned vector has length exactly `N` and
its `i`-th entry is the value the server holds for the `i`-th key of the
query set (chunk results concatenated in query order); partial results from
rejected attempts are discarded and do not appear in the output.  The server
is arbitrary except that any successful batch response is pointwise aligned
with the requested chunk (`hpt`), which is the `BatchReader` contract. -/
theorem chunked_fetch_success_is_input_aligned (server : Server)
    (v : Pubkey → Option Account) (keys : List Pubkey) (m : Nat)
    (vals : List (Option Account))
    (hpt : ∀ c vs, server c = .ok vs → vs = c.map v)
    (h : (get_multiple_accounts_chunked server keys m).res = .ok vals) :
    vals = keys.map v ∧ vals.length = keys.length := by
  unfold get_multiple_accounts_chunked at h
  by_cases hk : keys.isEmpty
  · rw [if_pos hk] at h
    cases h
    rw [List.isEmpty_iff] at hk
    subst hk
    exact ⟨rfl, rfl⟩
  · rw [if_neg hk] at h
    have := fetchLoop_success_aligned server v keys hpt (keys.length + 1) 1 m
      vals h
    exact ⟨this, by rw [this, List.length_map]⟩

theorem chunked_fetch_success_is_input_aligned_witness :
    [some 11, some 12, some 13] = ([1, 2, 3] : List Pubkey).map
      (fun k => some (k + 10)) ∧
    ([some 11, some 12, some 13] : List (Option Account)).length
      = ([1, 2, 3] : List Pubkey).length := by
  refine chunked_fetch_success_is_input_aligned
    (detServer 2 (fun k => some (k + 10))) (fun k => some (k + 10))
    [1, 2, 3] usize_MAX [some 11, some 12, some 13] ?_ (by decide)
  intro c vs hvs
  unfold detServer at hvs
  by_cases hc : c.length > 2
  · rw [if_pos hc] at hvs; cases hvs
  · rw [if_neg hc] at hvs; cases hvs; rfl

/-! ### Trace lemmas: evolution of `max_items_per_call` -/

theorem eventOK_maxAfter_le {e : Event} (h : EventOK e) :
    e.maxAfter ≤ e.maxBefore := by
  obtain ⟨hne, hlen, hrej, hok⟩ := h
  cases hb : e.rejected with
  | true =>
    have hpos : 1 ≤ e.chunk.length := List.length_pos.mpr hne
    rw [hrej hb]
    omega
  | false => rw [hok hb]

theorem eventOK_reject_lt {e : Event} (h : EventOK e)
    (hr : e.rejected = true) : e.maxAfter < e.maxBefore := by
  obtain ⟨hne, hlen, hrej, _⟩ := h
  have hpos : 1 ≤ e.chunk.length := List.length_pos.mpr hne
  rw [hrej hr]
  omega

theorem chained_append :
    ∀ (t₁ : List Event) (a b c : Nat) (t₂ : List Event),
      Chained a t₁ b → Chained b t₂ c → Chained a (t₁ ++ t₂) c := by
  intro t₁
  induction t₁ with
  | nil =>
    intro a b c t₂ h1 h2
    cases h1
    simpa using h2
  | cons e t ih =>
    intro a b c t₂ h1 h2
    exact ⟨h1.1, ih _ _ _ _ h1.2 h2⟩

theorem chained_maxBefore_le :
    ∀ (tr : List Event) (m₀ m₁ : Nat), Chained m₀ tr m₁ →
      (∀ e ∈ tr, EventOK e) → ∀ e ∈ tr, e.maxBefore ≤ m₀ := by
  intro tr
  induction tr with
  | nil => intro m₀ m₁ _ _ e he; simp at he
  | cons a tr ih =>
    intro m₀ m₁ hch hok e he
    rcases List.mem_cons.mp he with he | he
    · subst he; exact le_of_eq hch.1
    · have ha := eventOK_maxAfter_le (hok a (List.mem_cons_self a tr))
      have hb : a.maxBefore = m₀ := hch.1
      have := ih a.maxAfter m₁ hch.2 (fun x hx => hok x (List.mem_cons_of_mem a hx)) e he
      omega

theorem chained_final_le :
    ∀ (tr : List Event) (m₀ m₁ : Nat), Chained m₀ tr m₁ →
      (∀ e ∈ tr, EventOK e) → m₁ ≤ m₀ := by
  intro tr
  induction tr with
  | nil => intro m₀ m₁ hch _; exact le_of_eq hch.symm
  | cons a tr ih =>
    intro m₀ m₁ hch hok
    have ha := eventOK_maxAfter_le (hok a (List.mem_cons_self a tr))
    have hb : a.maxBefore = m₀ := hch.1
    have := ih a.maxAfter m₁ hch.2 (fun x hx => hok x (List.mem_cons_of_mem a hx))
    omega

/-- In any chained, well-formed trace, every chunk issued after a
too-many-inputs rejection is strictly shorter than the rejected chunk. -/
theorem chained_after_reject :
    ∀ (tr : List Event) (m₀ m₁ : Nat), Chained m₀ tr m₁ →
      (∀ e ∈ tr, EventOK e) →
      ∀ (i j : Fin tr.length), (i : Nat) < (j : Nat) →
        (tr.get i).rejected = true →
        (tr.get j).chunk.length < (tr.get i).chunk.length := by
  intro tr
  induction tr with
  | nil => intro m₀ m₁ _ _ i _ _ _; exact absurd i.isLt (by simp)
  | cons a tr ih =>
    intro m₀ m₁ hch hok i j hij hrej
    have hoka := hok a (List.mem_cons_self a tr)
    have hoktr : ∀ e ∈ tr, EventOK e :=
      fun x hx => hok x (List.mem_cons_of_mem a hx)
    match i, j with
    | ⟨0, h0⟩, ⟨0, h0'⟩ => exact absurd (hij : (0 : Nat) < 0) (Nat.lt_irrefl 0)
    | ⟨0, h0⟩, ⟨jn + 1, hj⟩ =>
      have hj' : jn < tr.length := Nat.lt_of_succ_lt_succ hj
      have hget : (a :: tr).get ⟨jn + 1, hj⟩ = tr.get ⟨jn, hj'⟩ := rfl
      have hgeti : (a :: tr).get ⟨0, h0⟩ = a := rfl
      rw [hget, hgeti]
      rw [hgeti] at hrej
      have hmem : tr.get ⟨jn, hj'⟩ ∈ tr := List.get_mem tr jn hj'
      have hmb := chained_maxBefore_le tr a.maxAfter m₁ hch.2 hoktr
        (tr.get ⟨jn, hj'⟩) hmem
      have hlen := (hoktr (tr.get ⟨jn, hj'⟩) hmem).2.1
      have hrw := hoka.2.2.1 hrej
      have hpos : 1 ≤ a.chunk.length := List.length_pos.mpr hoka.1
      omega
    | ⟨im + 1, hi⟩, ⟨0, h0⟩ =>
      exact absurd (hij : im + 1 < 0) (Nat.not_lt_zero _)
    | ⟨im + 1, hi⟩, ⟨jn + 1, hj⟩ =>
      have hi' : im < tr.length := Nat.lt_of_succ_lt_succ hi
      have hj' : jn < tr.length := Nat.lt_of_succ_lt_succ hj
      have hgi : (a :: tr).get ⟨im + 1, hi⟩ = tr.get ⟨im, hi'⟩ := rfl
      have hgj : (a :: tr).get ⟨jn + 1, hj⟩ = tr.get ⟨jn, hj'⟩ := rfl
      rw [hgi] at hrej ⊢
      rw [hgj]
      have hij2 : im + 1 < jn + 1 := hij
      exact ih a.maxAfter m₁ hch.2 hoktr ⟨im, hi'⟩ ⟨jn, hj'⟩
        (show im < jn by omega) hrej

theorem runChunks_trace (server : Server) (m : Nat) :
    ∀ cs : List (List Pubkey), (∀ c ∈ cs, c.length ≤ m ∧ c ≠ []) →
      (∀ e ∈ (runChunks server m cs).1, EventOK e) ∧
      Chained m (runChunks server m cs).1
        (outMax m (runChunks server m cs).2) := by
  intro cs
  induction cs with
  | nil => intro _; exact ⟨by simp [runChunks], rfl⟩
  | cons c cs ih =>
    intro hall
    have hc := hall c (List.mem_cons_self c cs)
    have hcs := fun d hd => hall d (List.mem_cons_of_mem c hd)
    cases hsrv : server c with
    | ok vals =>
      have ihr := ih hcs
      simp only [runChunks, hsrv]
      constructor
      · intro e he
        rcases List.mem_cons.mp he with he | he
        · subst he
          exact ⟨hc.2, hc.1, (by intro h; cases h), fun _ => rfl⟩
        · exact ihr.1 e he
      · refine ⟨rfl, ?_⟩
        have : outMax m
            (match (runChunks server m cs).2 with
              | .success rest => AttemptOut.success (vals ++ rest)
              | o => o) = outMax m (runChunks server m cs).2 := by
          cases (runChunks server m cs).2 <;> rfl
        rw [this]
        exact ihr.2
    | tooManyInputs =>
      simp only [runChunks, hsrv]
      constructor
      · intro e he
        rcases List.mem_cons.mp he with he | he
        · subst he
          exact ⟨hc.2, hc.1, fun _ => rfl, (by intro h; cases h)⟩
        · simp at he
      · exact ⟨rfl, rfl⟩
    | otherError =>
      simp only [runChunks, hsrv]
      constructor
      · intro e he
        rcases List.mem_cons.mp he with he | he
        · subst he
          exact ⟨hc.2, hc.1, (by intro h; cases h), fun _ => rfl⟩
        · simp at he
      · exact ⟨rfl, rfl⟩

theorem fetchLoop_trace (server : Server) (keys : List Pubkey) :
    ∀ (fuel k m : Nat),
      (∀ e ∈ (fetchLoop server keys k m fuel).trace, EventOK e) ∧
      Chained m (fetchLoop server keys k m fuel).trace
        (fetchLoop server keys k m fuel).finalMax := by
  intro fuel
  induction fuel with
  | zero => intro k m; exact ⟨by simp [fetchLoop], rfl⟩
  | succ n ih =>
    intro k m
    simp only [fetchLoop]
    by_cases hz : keys.length / k = 0
    · rw [if_pos hz]
      exact ⟨by simp, rfl⟩
    · rw [if_neg hz]
      by_cases hskip : keys.length / k > m
      · rw [if_pos hskip]
        exact ih (k + 1) m
      · rw [if_neg hskip]
        have hall : ∀ c ∈ chunksOf (keys.length / k) keys,
            c.length ≤ m ∧ c ≠ [] := by
          intro c hcm
          have := chunksOf_mem (keys.length / k)
            (Nat.one_le_iff_ne_zero.mpr hz) keys c hcm
          exact ⟨by omega, this.2⟩
        have hrt := runChunks_trace server m (chunksOf (keys.length / k) keys)
          hall
        cases hr : (runChunks server m (chunksOf (keys.length / k) keys)).2 with
        | success vals =>
          rw [hr] at hrt
          dsimp only
          by_cases hlen : vals.length = keys.length
          · rw [if_pos hlen]
            exact ⟨hrt.1, hrt.2⟩
          · rw [if_neg hlen]
            exact ⟨hrt.1, hrt.2⟩
        | rejectedAttempt len =>
          rw [hr] at hrt
          dsimp only
          have ihr := ih (k + 1) (len - 1)
          constructor
          · intro e he
            rcases List.mem_append.mp he with he | he
            · exact hrt.1 e he
            · exact ihr.1 e he
          · exact chained_append _ _ _ _ _ hrt.2 ihr.2
        | fatalAttempt =>
          rw [hr] at hrt
          dsimp only
          exact ⟨hrt.1, hrt.2⟩

theorem get_multiple_accounts_chunked_trace (server : Server)
    (keys : List Pubkey) (m : Nat) :
    (∀ e ∈ (get_multiple_accounts_chunked server keys m).trace, EventOK e) ∧
    Chained m (get_multiple_accounts_chunked server keys m).trace
      (get_multiple_accounts_chunked server keys m).finalMax := by
  unfold get_multiple_accounts_chunked
  by_cases hk : keys.isEmpty
  · rw [if_pos hk]
    exact ⟨by simp, rfl⟩
  · rw [if_neg hk]
    exact fetchLoop_trace server keys (keys.length + 1) 1 m

theorem runCalls_trace (server : Server) :
    ∀ (calls : List (List Pubkey)) (m : Nat),
      (∀ e ∈ (runCalls server calls m).1, EventOK e) ∧
      Chained m (runCalls server calls m).1 (runCalls server calls m).2 := by
  intro calls
  induction calls with
  | nil => intro m; exact ⟨by simp [runCalls], rfl⟩
  | cons ks rest ih =>
    intro m
    simp only [runCalls]
    have h1 := get_multiple_accounts_chunked_trace server ks m
    have h2 := ih (get_multiple_accounts_chunked server ks m).finalMax
    constructor
    · intro e he
      rcases List.mem_append.mp he with he | he
      · exact h1.1 e he
      · exact h2.1 e he
    · exact chained_append _ _ _ _ _ h1.2 h2.2

/-- Claim C3: `max_items_per_call` is monotonically non-increasing over the
whole life of a `SnapshotClient`: it starts at the unbounded value
`usize::MAX`, the before/after values thread through the trace of every
server call of every `get_multiple_accounts_chunked` call (`Chained`), and
the only events that write it are confirmed too-many-inputs rejections, each
setting it to the rejected chunk's length minus 1, a value strictly below
its previous value; every other event leaves it unchanged. -/
theorem max_items_per_call_monotone (server : Server)
    (calls : List (List Pubkey)) (m₀ : Nat) :
    SnapshotClient.new.max_items_per_call = usize_MAX ∧
    (runCalls server calls m₀).2 ≤ m₀ ∧
    Chained m₀ (runCalls server calls m₀).1 (runCalls server calls m₀).2 ∧
    (∀ e ∈ (runCalls server calls m₀).1,
      (e.rejected = true →
        e.maxAfter = e.chunk.length - 1 ∧ e.maxAfter < e.maxBefore) ∧
      (e.rejected = false → e.maxAfter = e.maxBefore)) := by
  have h := runCalls_trace server calls m₀
  refine ⟨rfl, chained_final_le _ _ _ h.2 h.1, h.2, ?_⟩
  intro e he
  have hok := h.1 e he
  exact ⟨fun hr => ⟨hok.2.2.1 hr, eventOK_reject_lt hok hr⟩, hok.2.2.2⟩

theorem max_items_per_call_monotone_witness :
    SnapshotClient.new.max_items_per_call = usize_MAX ∧
    (runCalls (detServer 1 (fun _ => none)) [[0, 1, 2, 3]] usize_MAX).2
      ≤ usize_MAX ∧
    Chained usize_MAX
      (runCalls (detServer 1 (fun _ => none)) [[0, 1, 2, 3]] usize_MAX).1
      (runCalls (detServer 1 (fun _ => none)) [[0, 1, 2, 3]] usize_MAX).2 ∧
    (∀ e ∈ (runCalls (detServer 1 (fun _ => none)) [[0, 1, 2, 3]]
        usize_MAX).1,
      (e.rejected = true →
        e.maxAfter = e.chunk.length - 1 ∧ e.maxAfter < e.maxBefore) ∧
      (e.rejected = false → e.maxAfter = e.maxBefore)) :=
  max_items_per_call_monotone (detServer 1 (fun _ => none)) [[0, 1, 2, 3]]
    usize_MAX

/-- Counterexample to claim C2 as stated: with hidden limit `L = 1` and one
call for the four keys `[0, 1, 2, 3]` on a fresh client, the first chunk
(length 4) is rejected, after which the retry at `num_chunks = 2` still
issues a chunk of length `2 > L` to the batch reader (which rejects it in
turn).  So it is not true that after the first rejection no subsequently
issued chunk exceeds `L`. -/
theorem chunk_after_first_rejection_may_exceed_limit :
    ¬ (∀ (i j : Fin ((runCalls (detServer 1 (fun _ => none)) [[0, 1, 2, 3]]
          usize_MAX).1.length)),
        (i : Nat) < (j : Nat) →
        ((runCalls (detServer 1 (fun _ => none)) [[0, 1, 2, 3]]
          usize_MAX).1.get i).rejected = true →
        ((runCalls (detServer 1 (fun _ => none)) [[0, 1, 2, 3]]
          usize_MAX).1.get j).chunk.length ≤ 1) := by
  decide

/-- Claim C2 (amended): after a batch is rejected for exceeding the limit,
every chunk subsequently issued to the batch reader — in that call or any
later call of the same process — is strictly shorter than that rejected
chunk (the ceiling becomes the rejected length minus 1 and only decreases).
Chunks may still exceed the hidden limit `L` itself until the learned
ceiling has fallen to `L` or below. -/
theorem chunk_after_rejection_shorter_than_rejected (server : Server)
    (calls : List (List Pubkey)) (m₀ : Nat)
    (i j : Fin ((runCalls server calls m₀).1.length))
    (hij : (i : Nat) < (j : Nat))
    (hrej : ((runCalls server calls m₀).1.get i).rejected = true) :
    ((runCalls server calls m₀).1.get j).chunk.length
      < ((runCalls server calls m₀).1.get i).chunk.length := by
  have h := runCalls_trace server calls m₀
  exact chained_after_reject _ _ _ h.2 h.1 i j hij hrej

theorem chunk_after_rejection_shorter_than_rejected_witness :
    ((runCalls (detServer 1 (fun _ => none)) [[0, 1, 2, 3]]
        usize_MAX).1.get ⟨1, by decide⟩).chunk.length
      < ((runCalls (detServer 1 (fun _ => none)) [[0, 1, 2, 3]]
        usize_MAX).1.get ⟨0, by decide⟩).chunk.length :=
  chunk_after_rejection_shorter_than_rejected
    (detServer 1 (fun _ => none)) [[0, 1, 2, 3]] usize_MAX
    ⟨0, by decide⟩ ⟨1, by decide⟩ (by decide) (by decide)

/-! ### `OrderedSet::push` (claim C7) -/

/-- Counterexample to claim C7 as stated: `OrderedSet::push` does not return
a boolean at all — its return type is `()` (here the `Unit` component of the
state-passing embedding), so there is no boolean return value that could
indicate whether the key was newly inserted.  (The boolean exists only as
the internal `is_new` binding from the `HashSet` insert.) -/
theorem push_does_not_return_a_bool :
    ¬ ∃ b : Bool, HEq ((OrderedSet.new Pubkey).push 0).2 b := by
  rintro ⟨b, h⟩
  have e : Unit = Bool := type_eq_of_heq h
  have h2 : Subsingleton Bool := e ▸ (inferInstance : Subsingleton Unit)
  exact absurd (h2.elim true false) (by decide)

/-- Claim C7 (amended): `push` returns no value (unit).  Internally the flag
`is_new` — the boolean produced by the `HashSet` insert — is true iff the
element was not already present, and the element is appended to the
insertion-order sequence exactly in that case: pushing a present element
leaves the whole set unchanged, pushing an absent element appends it to the
sequence and adds it to the hash set. -/
theorem push_inserts_iff_new {T : Type} [DecidableEq T] (s : OrderedSet T)
    (x : T) :
    (s.push x).2 = () ∧
    (x ∈ s.elements_set → (s.push x).1 = s) ∧
    (x ∉ s.elements_set →
      (s.push x).1.elements_vec = s.elements_vec ++ [x] ∧
      (s.push x).1.elements_set = insert x s.elements_set) := by
  refine ⟨rfl, ?_, ?_⟩
  · intro hx
    have hins : insert x s.elements_set = s.elements_set :=
      Finset.insert_eq_self.mpr hx
    simp [OrderedSet.push, hx, hins]
  · intro hx
    simp [OrderedSet.push, hx]

theorem push_inserts_iff_new_witness :
    ((OrderedSet.new Pubkey).push 5).2 = () ∧
    ((5 : Pubkey) ∈ (OrderedSet.new Pubkey).elements_set →
      ((OrderedSet.new Pubkey).push 5).1 = OrderedSet.new Pubkey) ∧
    ((5 : Pubkey) ∉ (OrderedSet.new Pubkey).elements_set →
      ((OrderedSet.new Pubkey).push 5).1.elements_vec
        = (OrderedSet.new Pubkey).elements_vec ++ [5] ∧
      ((OrderedSet.new Pubkey).push 5).1.elements_set
        = insert 5 (OrderedSet.new Pubkey).elements_set) :=
  push_inserts_iff_new (OrderedSet.new Pubkey) 5

/-! ### Daemon claims (C8, C9, C10) -/

/-- Claim C8: the backoff delay computed after a failed poll lies in
`[0, clamp(elapsed_since_last_success, 200ms, 300s)]`: the target is the
elapsed time clamped between 0.2 s and 300 s, and the delay is drawn from
`[0, target)` — the generator oracle `rng` is constrained only by the
`gen_range` contract of returning a value inside the (non-empty) range. -/
theorem backoff_delay_within_clamped_target (time_since_last_success : Nat)
    (rng : Nat → Nat) (hrng : ∀ b, 0 < b → rng b < b) :
    0 ≤ get_sleep_time_after_error time_since_last_success rng ∧
    get_sleep_time_after_error time_since_last_success rng
      ≤ clampDuration time_since_last_success min_sleep_time max_sleep_time := by
  have htarget :
      0 < clampDuration time_since_last_success min_sleep_time
        max_sleep_time := by
    simp only [clampDuration, min_sleep_time, max_sleep_time]
    split_ifs <;> omega
  exact ⟨Nat.zero_le _, le_of_lt (hrng _ htarget)⟩

theorem backoff_delay_within_clamped_target_witness :
    0 ≤ get_sleep_time_after_error 1000 (fun b => b - 1) ∧
    get_sleep_time_after_error 1000 (fun b => b - 1)
      ≤ clampDuration 1000 min_sleep_time max_sleep_time :=
  backoff_delay_within_clamped_target 1000 (fun b => b - 1)
    (fun b hb => Nat.sub_lt hb Nat.one_pos)

/-- Claim C9 is contradicted by the code: on a successful poll iteration,
`Daemon::run` never writes `last_read_success` — the field is assigned only
in `Daemon::new` — so after any successful iteration it still holds the
daemon's creation instant (first conjunct: in general the success branch
leaves it unchanged; second conjunct: evaluated at the failing input, a
daemon created at instant 0 whose poll succeeds at instant 10000000000 still
has `last_read_success = 0`, so a later backoff measures time since process
start, not since the last successful poll, contradicting the field's own
documentation). -/
theorem successful_poll_does_not_update_last_read_success :
    (∀ (poll_interval : Nat) (self : Daemon) (rpc : RpcData)
      (now_wall now_mono : Nat) (rng : Nat → Nat),
      ((run_iteration poll_interval self (some rpc) now_wall now_mono
          rng).1).last_read_success = self.last_read_success) ∧
    ((run_iteration 5 (Daemon.new 0)
        (some { slot := 100, epoch := 2, version := "1.9.0" })
        10000000000 10000000000 (fun b => b - 1)).1).last_read_success = 0 :=
  ⟨fun _ _ _ _ _ _ => rfl, rfl⟩

/-- Claim C10: a failed poll iteration leaves the published metrics snapshot
(the mutex-guarded `Arc<Metrics>` read by the HTTP handlers in
`serve_request`) unchanged, while the private poll and error counters
advance; the incremented counters become visible to metrics readers only
through the publication performed by the next successful poll. -/
theorem failed_poll_leaves_published_metrics_unchanged
    (poll_interval : Nat) (self : Daemon) (now_wall now_mono : Nat)
    (rng : Nat → Nat) (rpc : RpcData) (now_wall2 now_mono2 : Nat)
    (rng2 : Nat → Nat) :
    ((run_iteration poll_interval self none now_wall now_mono
        rng).1).snapshot_mutex = self.snapshot_mutex ∧
    ((run_iteration poll_interval self none now_wall now_mono
        rng).1).metrics.polls = self.metrics.polls + 1 ∧
    ((run_iteration poll_interval self none now_wall now_mono
        rng).1).metrics.errors = self.metrics.errors + 1 ∧
    ((run_iteration poll_interval
        ((run_iteration poll_interval self none now_wall now_mono rng).1)
        (some rpc) now_wall2 now_mono2 rng2).1).snapshot_mutex.polls
      = self.metrics.polls + 2 ∧
    ((run_iteration poll_interval
        ((run_iteration poll_interval self none now_wall now_mono rng).1)
        (some rpc) now_wall2 now_mono2 rng2).1).snapshot_mutex.errors
      = self.metrics.errors + 1 :=
  ⟨rfl, rfl, rfl, rfl, rfl⟩

/-! ### `with_snapshot` claims (C5, C6) -/

/-- Claim C5: whenever `with_snapshot` returns `Ok`, the persistent
`accounts_to_query` afterwards is exactly the ordered referenced set
produced by the callback in the final (successful) round: every key the
callback referenced in that round is in the set and nothing else remains,
regardless of what `accounts_to_query` held before the call. -/
theorem with_snapshot_ok_query_equals_referenced {T : Type} (server : Server)
    (vinfo : Nat → Except Err (List (Pubkey × Pubkey))) (f : Callback T) :
    ∀ (fuel round : Nat) (self client : SnapshotClient) (t : T) (n : Nat),
      with_snapshot server vinfo f fuel round self
        = .done (.ok t) client n →
      ∃ (accounts : List (Pubkey × Option Account))
        (refd : OrderedSet Pubkey),
        f accounts (OrderedSet.new Pubkey) = (refd, .ok t) ∧
        client.accounts_to_query = refd := by
  intro fuel
  induction fuel with
  | zero =>
    intro round self client t n h
    simp only [with_snapshot] at h
    exact WsRes.noConfusion h
  | succ fl ih =>
    intro round self client t n h
    simp only [with_snapshot] at h
    cases hres : (get_multiple_accounts_chunked server
        self.accounts_to_query.elements_vec self.max_items_per_call).res with
    | outOfFuel => rw [hres] at h; exact WsRes.noConfusion h
    | assertFail => rw [hres] at h; exact WsRes.noConfusion h
    | fatal =>
      rw [hres] at h
      injection h with h1 h2 h3
      exact Except.noConfusion h1
    | ok account_values =>
      rw [hres] at h
      dsimp only at h
      split at h
      next result heq =>
        injection h with h1 h2 h3
        injection h1 with h1
        subst h1
        subst h2
        exact ⟨_, _, Prod.ext rfl heq, rfl⟩
      next err heq =>
        injection h with h1 h2 h3
        exact Except.noConfusion h1
      next identity_addr heq =>
        split at h
        next e hv =>
          injection h with h1 h2 h3
          exact Except.noConfusion h1
        next addrs hv =>
          split at h
          · split at h
            next r st n' hrec =>
              injection h with h1 h2 h3
              subst h1
              subst h2
              exact ih (round + 1) _ _ t n' hrec
            next hother => exact (hother _ _ _ h).elim
          · injection h with h1 h2 h3
            exact Except.noConfusion h1
      next heq =>
        split at h
        next r st n' hrec =>
          injection h with h1 h2 h3
          subst h1
          subst h2
          exact ih (round + 1) _ _ t n' hrec
        next hother => exact (hother _ _ _ h).elim

theorem with_snapshot_ok_query_equals_referenced_witness :
    ∃ (accounts : List (Pubkey × Option Account)) (refd : OrderedSet Pubkey),
      read_keys [2] accounts (OrderedSet.new Pubkey) = (refd, .ok ()) ∧
      SnapshotClient.accounts_to_query ⟨⟨[2], {2}⟩, [], usize_MAX⟩ = refd :=
  with_snapshot_ok_query_equals_referenced (detServer 5 (fun _ => some 0))
    (fun _ => .ok []) (read_keys [2]) 1 0 ⟨⟨[7, 2], {7, 2}⟩, [], usize_MAX⟩
    ⟨⟨[2], {2}⟩, [], usize_MAX⟩ () 1 (by decide)

theorem lookup_zip_map (v : Pubkey → Option Account) :
    ∀ (keys : List Pubkey) (key : Pubkey), key ∈ keys →
      (keys.zip (keys.map v)).lookup key = some (v key) := by
  intro keys
  induction keys with
  | nil => intro key h; simp at h
  | cons a as ih =>
    intro key h
    by_cases hk : key = a
    · subst hk
      simp [List.lookup]
    · have hbeq : (key == a) = false := beq_eq_false_iff_ne.mpr hk
      rcases List.mem_cons.mp h with h' | h'
      · exact absurd h' hk
      · simpa [List.lookup, List.zip, hbeq] using ih key h'

/-- Claim C6: if a key is present in the current round's fetched map but its
value records that the account does not exist on the network, a callback
that reads that key (propagating the error) makes `with_snapshot` return the
fatal missing-account error on that same attempt, after exactly one fetch
round — zero further fetch/retry rounds. -/
theorem with_snapshot_fatal_not_found_first_attempt (L : Nat)
    (v : Pubkey → Option Account)
    (vinfo : Nat → Except Err (List (Pubkey × Pubkey)))
    (self : SnapshotClient) (key : Pubkey) (fuel round : Nat)
    (hL : 1 ≤ L) (hm : L ≤ self.max_items_per_call)
    (hmem : key ∈ self.accounts_to_query.elements_vec)
    (habsent : v key = none) :
    ∃ client, with_snapshot (detServer L v) vinfo (read_keys [key])
        (fuel + 1) round self
      = .done (.error (.missingAccount key)) client 1 := by
  have hne : self.accounts_to_query.elements_vec ≠ [] := by
    intro he; rw [he] at hmem; simp at hmem
  have hres := get_multiple_accounts_chunked_detServer_ok L v
    self.accounts_to_query.elements_vec self.max_items_per_call hL hne hm
  refine ⟨{ self with max_items_per_call :=
    (get_multiple_accounts_chunked (detServer L v)
      self.accounts_to_query.elements_vec
      self.max_items_per_call).finalMax }, ?_⟩
  simp only [with_snapshot]
  rw [hres]
  dsimp only
  have hlook := lookup_zip_map v self.accounts_to_query.elements_vec key hmem
  simp only [read_keys, read_keys_go, Snapshot_get_account, hlook, habsent]

theorem with_snapshot_fatal_not_found_first_attempt_witness :
    ∃ client, with_snapshot (detServer 1 (fun _ => none)) (fun _ => .ok [])
        (read_keys [3]) 1 0 ⟨⟨[3], {3}⟩, [], usize_MAX⟩
      = .done (.error (.missingAccount 3)) client 1 :=
  with_snapshot_fatal_not_found_first_attempt 1 (fun _ => none)
    (fun _ => .ok []) ⟨⟨[3], {3}⟩, [], usize_MAX⟩ 3 0 0 (le_refl 1)
    (by decide) (by decide) rfl
